import Mathlib

set_option linter.dupNamespace false

/-!
# View synchronisation of the note keeper (`mts/internal/ui/model.go`)

A shallow embedding of the three view functions of the terminal UI model,
`updateTable`, `updateFullTopicTable` and `updateTopicsTable`, together with the
pieces of the Go runtime they call (`len`, slicing, `strings.Join`,
`fmt.Sprintf("%d", _)`, `time.Time.Format`, `sort.Slice`).

Go strings are byte sequences: `len(s)` counts bytes and `s[:k]` cuts at a byte
offset.  They are therefore embedded as lists of bytes, and text is related to
them through its UTF-8 encoding.
-/

namespace Mts

/-! ## Go strings -/

/-- A Go `string`: an immutable sequence of bytes. -/
abbrev GoString := List UInt8

/-- The bytes of a piece of text, that is its UTF-8 encoding (how Go stores
string literals and any text typed by the user). -/
def goStr (s : String) : GoString := s.data.flatMap String.utf8EncodeChar

/-- The literal `"..."` appended by every truncation site. -/
def ellipsis : GoString := goStr "..."

/-- The literal `"P"` shown in the ID cell of a pending note. -/
def pendingLabel : GoString := goStr "P"

/-- The literal `", "` between topic names. -/
def topicSep : GoString := goStr ", "

/-- The `first` table of Go's package utf8 for a byte `c ≥ 0x80`: the length of
the sequence that `c` starts and the accepted range of its second byte, or
`none` when `c` cannot start a sequence. -/
def leadInfo (c : UInt8) : Option (Nat × UInt8 × UInt8) :=
  if c < 0xC2 then none
  else if c < 0xE0 then some (2, 0x80, 0xBF)
  else if c = 0xE0 then some (3, 0xA0, 0xBF)
  else if c = 0xED then some (3, 0x80, 0x9F)
  else if c < 0xF0 then some (3, 0x80, 0xBF)
  else if c = 0xF0 then some (4, 0x90, 0xBF)
  else if c < 0xF4 then some (4, 0x80, 0xBF)
  else if c = 0xF4 then some (4, 0x80, 0x8F)
  else none

/-- Check of the continuation bytes `rest` after a lead byte announcing `size`
bytes: the width is `size` when they are all in range and 1 otherwise. -/
def contWidth (size : Nat) (lo hi : UInt8) (rest : GoString) : Nat :=
  if rest.length + 1 < size then 1
  else
    match rest with
    | [] => 1
    | c1 :: r1 =>
      if c1 < lo || hi < c1 then 1
      else if size = 2 then 2
      else
        match r1 with
        | [] => 1
        | c2 :: r2 =>
          if c2 < 0x80 || 0xBF < c2 then 1
          else if size = 3 then 3
          else
            match r2 with
            | [] => 1
            | c3 :: _ => if c3 < 0x80 || 0xBF < c3 then 1 else 4

/-- Byte width of the first rune of `s` as Go decodes it (`utf8.DecodeRuneInString`):
1 for an ASCII byte and for every byte that does not start a well-formed
sequence, otherwise 2, 3 or 4.  It is 0 only for the empty string. -/
def runeWidth : GoString → Nat
  | [] => 0
  | c :: rest =>
    if c < 0x80 then 1
    else
      match leadInfo c with
      | none => 1
      | some (size, lo, hi) => contWidth size lo hi rest

/-- The loop of `utf8.RuneCountInString`, one iteration per unit of fuel. -/
def runeCountLoop : Nat → GoString → Nat
  | 0, _ => 0
  | _ + 1, [] => 0
  | fuel + 1, c :: rest => 1 + runeCountLoop fuel ((c :: rest).drop (runeWidth (c :: rest)))

/-- Number of characters (runes) of a Go string, `utf8.RuneCountInString`: every
byte that is not part of a well-formed sequence counts as one character.  Each
iteration consumes at least one byte, so `len(s)` iterations are enough. -/
def runeCount (s : GoString) : Nat := runeCountLoop s.length s

/-! ## Truncation, as written at the four sites -/

/-- Truncation of the note content in `updateTable`:
`if len(content) > 38 { content = content[:35] + "..." }`. -/
def truncContent (content : GoString) : GoString :=
  if content.length > 38 then content.take 35 ++ ellipsis else content

/-- Truncation of the joined topics in `updateTable`:
`if len(topicsStr) > 18 { topicsStr = topicsStr[:15] + "..." }`. -/
def truncJoinedTopics (topicsStr : GoString) : GoString :=
  if topicsStr.length > 18 then topicsStr.take 15 ++ ellipsis else topicsStr

/-- Truncation of a catalog topic name in `updateFullTopicTable`:
`if len(topicsStr) > 18 { topicsStr = topicsStr[:15] + "..." }`. -/
def truncCatalogTopic (topicsStr : GoString) : GoString :=
  if topicsStr.length > 18 then topicsStr.take 15 ++ ellipsis else topicsStr

/-- Truncation of a topic name of the current note in `updateTopicsTable`:
`if len(topicText) > 18 { topicText = topicText[:15] + "..." }`. -/
def truncNoteTopic (topicText : GoString) : GoString :=
  if topicText.length > 18 then topicText.take 15 ++ ellipsis else topicText

/-- The truncation rule in the words of the specification, with the length
counted in bytes: longer than `W` gives the first `W - 3` bytes and the marker,
otherwise the string itself. -/
def truncateRule (W : Nat) (s : GoString) : GoString :=
  if s.length > W then s.take (W - 3) ++ ellipsis else s

/-- The truncation rule in the words of the specification, with the length
counted in characters of the text. -/
def truncateChars (W : Nat) (s : String) : String :=
  if s.length > W then String.mk (s.data.take (W - 3)) ++ "..." else s

/-- Text made of ASCII characters only (one byte per character). -/
def IsAscii (s : String) : Prop := ∀ c ∈ s.data, c.val ≤ 127

/-! ## Formatting: `fmt.Sprintf("%d", _)`, `strings.Join`, `time.Time.Format` -/

/-- The byte `'0' + d` of a decimal digit. -/
def digitByte (d : Nat) : UInt8 := UInt8.ofNat (48 + d)

/-- The digit loop of Go's integer formatting in base 10, one division per unit
of fuel: `for u >= 10 { next := u / 10; buf[i] = '0' + u - next*10; u = next }`
and then the leading digit. -/
def decimalLoop : Nat → Nat → GoString
  | 0, u => [digitByte u]
  | fuel + 1, u =>
    if u ≥ 10 then decimalLoop fuel (u / 10) ++ [digitByte (u - (u / 10) * 10)]
    else [digitByte u]

/-- Decimal digits of a natural number; `u` units of fuel always reach the
leading digit. -/
def decimalDigits (u : Nat) : GoString := decimalLoop u u

/-- The result of `fmt.Sprintf("%d", v)` on an integer: a minus sign for a negative
value, then the decimal digits of its magnitude. -/
def sprintfD (v : Int) : GoString :=
  if v < 0 then goStr "-" ++ decimalDigits v.natAbs else decimalDigits v.toNat

/-- The number a string of decimal digits denotes (used to state what
`decimalDigits` renders). -/
def digitsValue (s : GoString) : Nat :=
  s.foldl (fun acc b => acc * 10 + (b.toNat - 48)) 0

/-- The result of `strings.Join(elems, sep)`: empty for no element, otherwise
the first element followed by `sep` and the next element, in order. -/
def stringsJoin : List GoString → GoString → GoString
  | [], _ => []
  | e :: rest, sep => rest.foldl (fun b s => b ++ sep ++ s) e

/-- A `time.Time`, given by the civil date and clock fields that `Format` reads
(in the time's own location). -/
structure Time where
  year : Int
  month : Nat
  day : Nat
  hour : Nat
  minute : Nat
  deriving DecidableEq, Repr

/-- Two-digit field of a time layout (`appendInt(b, x, 2)` for `x ≥ 0`): zero
padded below 100, the plain digits from 100 on. -/
def appendInt2 (u : Nat) : GoString :=
  if u < 100 then [digitByte (u / 10), digitByte (u % 10)] else decimalDigits u

/-- The result of `t.Format("06-01-02 15:04")`, the layout of the Time column:
two-digit year, month, day, then hour and minute. -/
def formatTime (t : Time) : GoString :=
  appendInt2 (t.year.natAbs % 100) ++ goStr "-" ++ appendInt2 t.month ++ goStr "-" ++
    appendInt2 t.day ++ goStr " " ++ appendInt2 t.hour ++ goStr ":" ++ appendInt2 t.minute

/-! ## `sort.Slice` -/

/-- A sorting routine with the signature of `sort.Slice`: given the element
type, the `less` function and the slice, the slice after sorting. -/
abbrev SliceSort := (α : Type) → (α → α → Bool) → List α → List α

/-- The requirement that package sort puts on `less`: it is irreflexive and it
is a transitive ordering ("if both Less(i, j) and Less(j, k) are true, then
Less(i, k) must be true as well; if both are false, then Less(i, k) must be
false as well"). -/
def LessOK {α : Type} (less : α → α → Bool) : Prop :=
  (∀ a, less a a = false) ∧
  (∀ a b c, less a b = true → less b c = true → less a c = true) ∧
  (∀ a b c, less a b = false → less b c = false → less a c = false)

/-- The contract of `sort.Slice`: the slice is rearranged (its elements are only
swapped), and for a `less` as package sort requires no element is less than
one placed before it.  Nothing is promised on the order of equal elements (the
sort is not stable). -/
def SliceSort.Lawful (srt : SliceSort) : Prop :=
  ∀ (α : Type) (less : α → α → Bool) (xs : List α),
    (srt α less xs).Perm xs ∧
    (LessOK less → (srt α less xs).Pairwise (fun a b => less b a = false))

/-- Inner loop of Go's insertion sort,
`for j := i; j > a && less(data[j], data[j-1]); j-- { swap(j, j-1) }`:
the element `x` moves left past every neighbour it is less than.  The sorted
prefix is given nearest element first. -/
def sinkInto {α : Type} (less : α → α → Bool) (x : α) : List α → List α
  | [] => [x]
  | p :: ps => if less x p then p :: sinkInto less x ps else x :: p :: ps

/-- Go's `insertionSortLessFunc`, the routine `sort.Slice` runs on slices of at
most 12 elements: the elements are sunk into the sorted prefix one by one. -/
def insertionSort : SliceSort :=
  fun _ less xs => (xs.foldl (fun sortedRev x => sinkInto less x sortedRev) []).reverse

/-! ## Data model -/

/-- A topic (`models.Topic`): integer identity and display name. -/
structure Topic where
  ID : Int
  Topic : GoString
  deriving DecidableEq, Repr

/-- A note (`models.Note`): integer identity (0 for a pending note), text,
creation time and the topics it carries, in order. -/
structure Note where
  ID : Int
  Content : GoString
  CreatedAt : Time
  Topics : List Topic
  deriving DecidableEq, Repr

/-- The application state (`app.App`) as far as the UI model reads it: the
filtered list, the recent list and the topic catalog (slices of pointers, given
by the values pointed to), and what its two query methods return.  The methods
`HasCurrentNote` and `CurrentNoteTopics` are declared in package `app`, outside
these sources, so their results are taken as given. -/
structure App where
  FilteredNotesList : List Note
  RecentNotes : List Note
  Topics : List Topic
  hasCurrentNote : Bool
  currentNoteTopics : List Topic
  deriving DecidableEq, Repr

/-- The call `m.app.HasCurrentNote()`. -/
def App.HasCurrentNote (a : App) : Bool := a.hasCurrentNote

/-- The call `m.app.CurrentNoteTopics()`. -/
def App.CurrentNoteTopics (a : App) : List Topic := a.currentNoteTopics

/-- A row of a table widget: its cells. -/
abbrev Row := List GoString

/-- A table widget (`table.Model`), given by the rows it shows. -/
structure Table where
  rows : List Row
  deriving DecidableEq, Repr

/-- The setter `SetRows` of the table widget. -/
def Table.SetRows (_t : Table) (rows : List Row) : Table := { rows := rows }

/-- The type `Selector`, declared `type Selector int`; its two declared modes
are `Default` and `Recent`. -/
abbrev Selector := Int

/-- The constant `Default Selector = iota`. -/
def Default : Selector := 0

/-- The constant `Recent`, the second of the `iota` block. -/
def Recent : Selector := 1

/-- The UI model (`Model`): the application state it points to, the selector,
the three tables, and the focus and geometry fields.  The text widgets and the
status bar are not touched by the view functions and are left out. -/
structure Model where
  app : App
  NoteSelector : Selector
  table : Table
  fullTopicTable : Table
  topicsTable : Table
  focus : Int
  width : Int
  height : Int
  ready : Bool
  deriving DecidableEq, Repr

/-! ## The view functions -/

/-- The copy loops `for _, x := range src { dst = append(dst, *x) }`: a fresh
slice receives the elements one by one. -/
def copyValues {α : Type} (src : List α) : List α :=
  src.foldl (fun dst x => dst ++ [x]) []

/-- The collection `updateTable` selects:
`switch s { case Recent: RecentNotes; default: FilteredNotesList }`. -/
def selectedNotes (a : App) (s : Selector) : List Note :=
  if s = Recent then a.RecentNotes else a.FilteredNotesList

/-- The comparison handed to `sort.Slice` in `updateTable`:
`notes[i].ID < notes[j].ID`. -/
def noteLess (a b : Note) : Bool := decide (a.ID < b.ID)

/-- The comparison handed to `sort.Slice` in `updateFullTopicTable`:
`topics[i].ID < topics[j].ID`. -/
def topicLess (a b : Topic) : Bool := decide (a.ID < b.ID)

/-- Body of the row loop of `updateTable` for one note; `now` is the reading of
`time.Now()`. -/
def noteRow (now : Time) (note : Note) : Row :=
  let topics := note.Topics.map (fun topic => topic.Topic)
  let topicsStr := truncJoinedTopics (stringsJoin topics topicSep)
  let content := truncContent note.Content
  let idStr := if note.ID = 0 then pendingLabel else sprintfD note.ID
  let timeStr := if note.ID = 0 then formatTime now else formatTime note.CreatedAt
  [idStr, timeStr, content, topicsStr]

/-- The slice `notes` of `updateTable` after `sort.Slice`, for the collection
`selected`: its copy, sorted by ID. -/
def sortedNotes (srt : SliceSort) (selected : List Note) : List Note :=
  srt Note noteLess (copyValues selected)

/-- The rows `updateTable` builds from the collection `selected`: one row per
element of the sorted copy. -/
def mainRows (srt : SliceSort) (now : Time) (selected : List Note) : List Row :=
  (sortedNotes srt selected).map (noteRow now)

/-- The method `Model.updateTable(s)`, run when the clock reads `now`. -/
def updateTable (srt : SliceSort) (now : Time) (m : Model) (s : Selector) : Model :=
  let m1 := { m with NoteSelector := s }
  let rows := mainRows srt now (selectedNotes m1.app s)
  { m1 with table := m1.table.SetRows rows }

/-- Body of the row loop of `updateFullTopicTable` for one topic. -/
def topicRow (t : Topic) : Row :=
  [sprintfD t.ID, truncCatalogTopic t.Topic]

/-- The slice `topics` of `updateFullTopicTable` after `sort.Slice`. -/
def sortedTopics (srt : SliceSort) (a : App) : List Topic :=
  srt Topic topicLess (copyValues a.Topics)

/-- The method `Model.updateFullTopicTable()`. -/
def updateFullTopicTable (srt : SliceSort) (m : Model) : Model :=
  let rows := (sortedTopics srt m.app).map topicRow
  { m with fullTopicTable := m.fullTopicTable.SetRows rows }

/-- The rows `updateTopicsTable` builds. -/
def topicsRows (a : App) : List Row :=
  if a.HasCurrentNote then
    let topics := a.CurrentNoteTopics
    if topics.length > 0 then topics.map (fun topic => [truncNoteTopic topic.Topic])
    else []
  else []

/-- The method `Model.updateTopicsTable()`. -/
def updateTopicsTable (m : Model) : Model :=
  { m with topicsTable := m.topicsTable.SetRows (topicsRows m.app) }

/-! ## Concrete states used as examples -/

/-- A reading of the clock: 4 November 2026, 10:09. -/
def clockA : Time := { year := 2026, month := 11, day := 4, hour := 10, minute := 9 }

/-- A later reading of the clock: 4 November 2026, 10:10. -/
def clockB : Time := { year := 2026, month := 11, day := 4, hour := 10, minute := 10 }

/-- The topic `(1, "go")`. -/
def topicGo : Topic := { ID := 1, Topic := goStr "go" }

/-- The topic `(2, "rust")`. -/
def topicRust : Topic := { ID := 2, Topic := goStr "rust" }

/-- The note `(ID=5, Content="hello world", Topics=[go])`, created 1 March 2025, 08:30. -/
def noteHello : Note :=
  { ID := 5, Content := goStr "hello world",
    CreatedAt := { year := 2025, month := 3, day := 1, hour := 8, minute := 30 },
    Topics := [topicGo] }

/-- A persisted note without topics. -/
def noteBare : Note :=
  { ID := 3, Content := goStr "loves rust",
    CreatedAt := { year := 2025, month := 2, day := 14, hour := 17, minute := 5 },
    Topics := [] }

/-- A pending note (ID 0). -/
def notePending : Note :=
  { ID := 0, Content := goStr "draft",
    CreatedAt := { year := 2025, month := 3, day := 2, hour := 9, minute := 0 },
    Topics := [topicRust] }

/-- A state with different filtered and recent lists, a two-topic catalog stored
out of order, and a current note. -/
def appDemo : App :=
  { FilteredNotesList := [noteHello, noteBare],
    RecentNotes := [notePending],
    Topics := [topicRust, topicGo],
    hasCurrentNote := true,
    currentNoteTopics := [topicRust, topicGo] }

/-- A UI model over `appDemo` with empty tables. -/
def modelDemo : Model :=
  { app := appDemo, NoteSelector := Default, table := { rows := [] },
    fullTopicTable := { rows := [] }, topicsTable := { rows := [] },
    focus := 0, width := 0, height := 0, ready := false }

/-- Twenty times the two-byte character `é`: 20 characters, 40 bytes. -/
def textAccents : String := String.mk (List.replicate 20 'é')

/-- Forty times the character `x`. -/
def textForty : String := String.mk (List.replicate 40 'x')

/-! ## Basic facts on strings -/

theorem ellipsis_length : ellipsis.length = 3 := by decide

theorem contWidth_pos (size : Nat) (lo hi : UInt8) (rest : GoString) :
    1 ≤ contWidth size lo hi rest := by
  unfold contWidth
  repeat' split
  all_goals omega

theorem runeWidth_pos (c : UInt8) (rest : GoString) : 1 ≤ runeWidth (c :: rest) := by
  simp only [runeWidth]
  split
  · exact Nat.le_refl 1
  · split
    · exact Nat.le_refl 1
    · exact contWidth_pos _ _ _ _

theorem runeCountLoop_le (fuel : Nat) (s : GoString) : runeCountLoop fuel s ≤ s.length := by
  induction fuel generalizing s with
  | zero => simp [runeCountLoop]
  | succ f ih =>
    cases s with
    | nil => simp [runeCountLoop]
    | cons c rest =>
      have hw := runeWidth_pos c rest
      have h := ih ((c :: rest).drop (runeWidth (c :: rest)))
      simp only [runeCountLoop]
      rw [List.length_drop] at h
      simp only [List.length_cons] at h ⊢
      omega

theorem runeCount_le_length (s : GoString) : runeCount s ≤ s.length :=
  runeCountLoop_le s.length s

theorem goStr_ascii (s : String) (h : IsAscii s) :
    goStr s = s.data.map (fun c => c.val.toUInt8) := by
  unfold goStr
  unfold IsAscii at h
  generalize s.data = cs at h
  induction cs with
  | nil => rfl
  | cons c cs ih =>
    have hc : c.val ≤ 127 := h c (List.mem_cons_self _ _)
    have ht := ih (fun d hd => h d (List.mem_cons_of_mem _ hd))
    simp only [List.flatMap_cons, List.map_cons, ht]
    simp [String.utf8EncodeChar, hc]

/-! ## Truncation -/

theorem truncateRule_length_le (W : Nat) (hW : 3 ≤ W) (s : GoString) :
    (truncateRule W s).length ≤ W := by
  unfold truncateRule
  split
  · next h =>
    rw [List.length_append, List.length_take, ellipsis_length]
    omega
  · next h => omega

theorem truncateRule_idem (W : Nat) (hW : 3 ≤ W) (s : GoString) :
    truncateRule W (truncateRule W s) = truncateRule W s := by
  have h := truncateRule_length_le W hW s
  generalize truncateRule W s = t at h
  unfold truncateRule
  rw [if_neg (by omega)]

theorem truncContent_eq_rule (s : GoString) : truncContent s = truncateRule 38 s := rfl

theorem truncJoinedTopics_eq_rule (s : GoString) : truncJoinedTopics s = truncateRule 18 s := rfl

theorem truncCatalogTopic_eq_rule (s : GoString) : truncCatalogTopic s = truncateRule 18 s := rfl

theorem truncNoteTopic_eq_rule (s : GoString) : truncNoteTopic s = truncateRule 18 s := rfl

theorem goStr_append (a b : String) : goStr (a ++ b) = goStr a ++ goStr b := by
  simp [goStr, String.data_append, List.flatMap_append]

theorem goStr_length_ascii (s : String) (h : IsAscii s) : (goStr s).length = s.length := by
  rw [goStr_ascii s h, List.length_map]
  rfl

theorem goStr_take_ascii (s : String) (h : IsAscii s) (k : Nat) :
    goStr (String.mk (s.data.take k)) = (goStr s).take k := by
  have hk : IsAscii (String.mk (s.data.take k)) := fun c hc => h c (List.mem_of_mem_take hc)
  rw [goStr_ascii s h, goStr_ascii _ hk, List.map_take]

/-- On ASCII text the byte rule and the character rule agree. -/
theorem truncateRule_ascii (W : Nat) (s : String) (h : IsAscii s) :
    truncateRule W (goStr s) = goStr (truncateChars W s) := by
  unfold truncateRule truncateChars
  rw [goStr_length_ascii s h]
  split
  · rw [goStr_append, goStr_take_ascii s h]
    rfl
  · rfl

/-- Claim C3: at each of the four truncation sites (content at width 38; joined
topics, catalog topic name and per-note topic name at width 18) the result has
at most that many bytes, hence at most that many characters, and truncating
the result again leaves it unchanged. -/
theorem truncation_bounded_idempotent (s : GoString) :
    ((truncContent s).length ≤ 38 ∧ runeCount (truncContent s) ≤ 38 ∧
      truncContent (truncContent s) = truncContent s) ∧
    ((truncJoinedTopics s).length ≤ 18 ∧ runeCount (truncJoinedTopics s) ≤ 18 ∧
      truncJoinedTopics (truncJoinedTopics s) = truncJoinedTopics s) ∧
    ((truncCatalogTopic s).length ≤ 18 ∧ runeCount (truncCatalogTopic s) ≤ 18 ∧
      truncCatalogTopic (truncCatalogTopic s) = truncCatalogTopic s) ∧
    ((truncNoteTopic s).length ≤ 18 ∧ runeCount (truncNoteTopic s) ≤ 18 ∧
      truncNoteTopic (truncNoteTopic s) = truncNoteTopic s) := by
  have h38 := truncateRule_length_le 38 (by omega) s
  have h18 := truncateRule_length_le 18 (by omega) s
  have r38 := runeCount_le_length (truncateRule 38 s)
  have r18 := runeCount_le_length (truncateRule 18 s)
  have i38 := truncateRule_idem 38 (by omega) s
  have i18 := truncateRule_idem 18 (by omega) s
  simp only [truncContent_eq_rule, truncJoinedTopics_eq_rule, truncCatalogTopic_eq_rule,
    truncNoteTopic_eq_rule]
  exact ⟨⟨h38, by omega, i38⟩, ⟨h18, by omega, i18⟩, ⟨h18, by omega, i18⟩, ⟨h18, by omega, i18⟩⟩

/-- Claim C4, refuted as stated: a content of 20 characters `é` is not longer
than 38 characters, so the claim shows it unmodified; it has 40 bytes, and the
code shows its first 35 bytes (17 characters and half of the 18th) and the
marker. -/
theorem truncation_cuts_short_accented_text :
    textAccents.length = 20 ∧
    truncateChars 38 textAccents = textAccents ∧
    truncContent (goStr textAccents) ≠ goStr (truncateChars 38 textAccents) ∧
    truncContent (goStr textAccents) = (goStr textAccents).take 35 ++ goStr "..." := by
  decide

/-- Claim C4, amended: with the length counted in bytes of the UTF-8 encoding,
every site shows the first `W - 3` bytes and the marker when the string is
longer than `W` bytes and the string itself otherwise (`W = 38` for the
content, `W = 18` for the three topic sites); on ASCII text, where bytes are
characters, this is the rule on characters; forty `x` show as thirty-five `x`
and the marker. -/
theorem truncation_rule_in_bytes :
    (∀ s : GoString,
      truncContent s = (if s.length > 38 then s.take (38 - 3) ++ goStr "..." else s) ∧
      truncJoinedTopics s = (if s.length > 18 then s.take (18 - 3) ++ goStr "..." else s) ∧
      truncCatalogTopic s = (if s.length > 18 then s.take (18 - 3) ++ goStr "..." else s) ∧
      truncNoteTopic s = (if s.length > 18 then s.take (18 - 3) ++ goStr "..." else s)) ∧
    (∀ s : GoString, truncContent s = truncateRule 38 s ∧ truncJoinedTopics s = truncateRule 18 s ∧
      truncCatalogTopic s = truncateRule 18 s ∧ truncNoteTopic s = truncateRule 18 s) ∧
    (∀ s : String, IsAscii s →
      truncContent (goStr s) = goStr (truncateChars 38 s) ∧
      truncJoinedTopics (goStr s) = goStr (truncateChars 18 s) ∧
      truncCatalogTopic (goStr s) = goStr (truncateChars 18 s) ∧
      truncNoteTopic (goStr s) = goStr (truncateChars 18 s)) ∧
    truncContent (goStr textForty) = goStr (String.mk (List.replicate 35 'x') ++ "...") := by
  refine ⟨fun s => ⟨rfl, rfl, rfl, rfl⟩, fun s => ⟨rfl, rfl, rfl, rfl⟩, ?_, by decide⟩
  intro s h
  exact ⟨truncateRule_ascii 38 s h, truncateRule_ascii 18 s h, truncateRule_ascii 18 s h,
    truncateRule_ascii 18 s h⟩

/-- Claim C4, amended, at the ASCII text of forty `x`. -/
theorem truncation_rule_in_bytes_witness :
    IsAscii textForty ∧
    truncContent (goStr textForty) = goStr (truncateChars 38 textForty) :=
  ⟨by unfold IsAscii; decide,
   (truncation_rule_in_bytes.2.2.1 textForty (by unfold IsAscii; decide)).1⟩

/-! ## Copying and sorting -/

theorem copy_foldl {α : Type} (src dst : List α) :
    src.foldl (fun dst x => dst ++ [x]) dst = dst ++ src := by
  induction src generalizing dst with
  | nil => simp
  | cons x xs ih => simp [ih]

theorem copyValues_eq {α : Type} (src : List α) : copyValues src = src := by
  simp [copyValues, copy_foldl]

theorem sinkInto_perm {α : Type} (less : α → α → Bool) (x : α) (l : List α) :
    (sinkInto less x l).Perm (x :: l) := by
  induction l with
  | nil => exact List.Perm.refl _
  | cons p ps ih =>
    simp only [sinkInto]
    split
    · exact (List.Perm.cons p ih).trans (List.Perm.swap x p ps)
    · exact List.Perm.refl _

theorem sink_foldl_perm {α : Type} (less : α → α → Bool) (xs acc : List α) :
    (xs.foldl (fun sortedRev x => sinkInto less x sortedRev) acc).Perm (xs ++ acc) := by
  induction xs generalizing acc with
  | nil => exact List.Perm.refl _
  | cons x xs ih =>
    simp only [List.foldl_cons]
    refine (ih (sinkInto less x acc)).trans ?_
    refine (List.Perm.append_left xs (sinkInto_perm less x acc)).trans ?_
    exact List.perm_middle

theorem sinkInto_ordered {α : Type} (less : α → α → Bool) (hl : LessOK less) (x : α)
    (l : List α) (h : l.Pairwise (fun a b => less a b = false)) :
    (sinkInto less x l).Pairwise (fun a b => less a b = false) := by
  obtain ⟨hirr, htr, hneg⟩ := hl
  induction l with
  | nil => simp [sinkInto]
  | cons p ps ih =>
    rw [List.pairwise_cons] at h
    simp only [sinkInto]
    split
    · next hxp =>
      rw [List.pairwise_cons]
      refine ⟨?_, ih h.2⟩
      intro y hy
      have hy' : y ∈ x :: ps := (List.Perm.mem_iff (sinkInto_perm less x ps)).1 hy
      rcases List.mem_cons.1 hy' with hyx | hyps
      · subst hyx
        cases hpx : less p y
        · rfl
        · have hyy := htr y p y hxp hpx
          rw [hirr y] at hyy
          exact absurd hyy (by simp)
      · exact h.1 y hyps
    · next hxp =>
      have hxp' : less x p = false := by simpa using hxp
      rw [List.pairwise_cons]
      refine ⟨?_, List.pairwise_cons.2 h⟩
      intro y hy
      rcases List.mem_cons.1 hy with hy | hy
      · subst hy; exact hxp'
      · exact hneg x p y hxp' (h.1 y hy)

theorem sink_foldl_ordered {α : Type} (less : α → α → Bool) (hl : LessOK less)
    (xs acc : List α) (h : acc.Pairwise (fun a b => less a b = false)) :
    (xs.foldl (fun sortedRev x => sinkInto less x sortedRev) acc).Pairwise
      (fun a b => less a b = false) := by
  induction xs generalizing acc with
  | nil => exact h
  | cons x xs ih => exact ih _ (sinkInto_ordered less hl x acc h)

/-- Go's insertion sort meets the contract of `sort.Slice`. -/
theorem insertionSort_lawful : SliceSort.Lawful insertionSort := by
  intro α less xs
  constructor
  · have h := sink_foldl_perm less xs []
    rw [List.append_nil] at h
    exact (List.reverse_perm _).trans h
  · intro hl
    have h := sink_foldl_ordered less hl xs [] List.Pairwise.nil
    exact List.pairwise_reverse.2 h

theorem noteLess_ok : LessOK noteLess := by
  refine ⟨?_, ?_, ?_⟩
  · intro a; simp [noteLess]
  · intro a b c; simp only [noteLess, decide_eq_true_eq]; omega
  · intro a b c; simp only [noteLess, decide_eq_false_iff_not]; omega

theorem topicLess_ok : LessOK topicLess := by
  refine ⟨?_, ?_, ?_⟩
  · intro a; simp [topicLess]
  · intro a b c; simp only [topicLess, decide_eq_true_eq]; omega
  · intro a b c; simp only [topicLess, decide_eq_false_iff_not]; omega

theorem sortedNotes_perm (srt : SliceSort) (hs : srt.Lawful) (selected : List Note) :
    (sortedNotes srt selected).Perm selected := by
  have h := (hs Note noteLess (copyValues selected)).1
  rw [copyValues_eq] at h
  unfold sortedNotes
  rw [copyValues_eq]
  exact h

theorem sortedNotes_ascending (srt : SliceSort) (hs : srt.Lawful) (selected : List Note) :
    (sortedNotes srt selected).Pairwise (fun a b => a.ID ≤ b.ID) := by
  have h := (hs Note noteLess (copyValues selected)).2 noteLess_ok
  refine List.Pairwise.imp ?_ h
  intro a b hab
  simp only [noteLess, decide_eq_false_iff_not] at hab
  omega

theorem sortedTopics_perm (srt : SliceSort) (hs : srt.Lawful) (a : App) :
    (sortedTopics srt a).Perm a.Topics := by
  have h := (hs Topic topicLess (copyValues a.Topics)).1
  rw [copyValues_eq] at h
  unfold sortedTopics
  rw [copyValues_eq]
  exact h

theorem sortedTopics_ascending (srt : SliceSort) (hs : srt.Lawful) (a : App) :
    (sortedTopics srt a).Pairwise (fun x y => x.ID ≤ y.ID) := by
  have h := (hs Topic topicLess (copyValues a.Topics)).2 topicLess_ok
  refine List.Pairwise.imp ?_ h
  intro x y hxy
  simp only [topicLess, decide_eq_false_iff_not] at hxy
  omega

/-! ## Formatting -/

theorem digitByte_toNat (d : Nat) (h : d < 10) : (digitByte d).toNat - 48 = d := by
  interval_cases d <;> rfl

theorem digitByte_eq_zero (d : Nat) (h : d < 10) (h0 : digitByte d = 48) : d = 0 := by
  interval_cases d <;> first | rfl | exact absurd h0 (by decide)

theorem digitByte_ne_P (d : Nat) (h : d < 10) : digitByte d ≠ 80 := by
  interval_cases d <;> decide

theorem decimalLoop_length_pos (fuel u : Nat) : 1 ≤ (decimalLoop fuel u).length := by
  cases fuel with
  | zero => simp [decimalLoop]
  | succ f =>
    simp only [decimalLoop]
    split <;> simp

/-- A rendering is either the single digit of a number below 10 or has at least
two bytes. -/
theorem decimalDigits_shape (u : Nat) :
    (u < 10 ∧ decimalDigits u = [digitByte u]) ∨ 2 ≤ (decimalDigits u).length := by
  unfold decimalDigits
  cases u with
  | zero => left; exact ⟨by omega, rfl⟩
  | succ f =>
    simp only [decimalLoop]
    split
    · right
      have h := decimalLoop_length_pos f ((f + 1) / 10)
      rw [List.length_append]
      simp only [List.length_singleton]
      omega
    · left; exact ⟨by omega, rfl⟩

theorem digitsValue_append (a : GoString) (b : UInt8) :
    digitsValue (a ++ [b]) = digitsValue a * 10 + (b.toNat - 48) := by
  simp [digitsValue, List.foldl_append]

/-- With enough fuel the digit loop renders the number: reading the digits back
gives it. -/
theorem decimalLoop_value (fuel u : Nat) (h : u ≤ fuel) :
    digitsValue (decimalLoop fuel u) = u := by
  induction fuel generalizing u with
  | zero =>
    have hu : u = 0 := by omega
    subst hu
    rfl
  | succ f ih =>
    simp only [decimalLoop]
    split
    · next h10 =>
      have hd : u - u / 10 * 10 < 10 := by omega
      rw [digitsValue_append, ih (u / 10) (by omega), digitByte_toNat _ hd]
      omega
    · next h10 =>
      have hd : u < 10 := by omega
      have hv := digitByte_toNat u hd
      simp only [digitsValue, List.foldl_cons, List.foldl_nil]
      omega

theorem decimalDigits_value (u : Nat) : digitsValue (decimalDigits u) = u :=
  decimalLoop_value u u (Nat.le_refl u)

theorem sprintfD_eq_zero_iff (v : Int) : sprintfD v = goStr "0" ↔ v = 0 := by
  have h0 : goStr "0" = [48] := by decide
  rw [h0]
  constructor
  · intro h
    unfold sprintfD at h
    split at h
    · next hneg =>
      have hl := congrArg List.length h
      have hp := decimalLoop_length_pos v.natAbs v.natAbs
      have hm : (goStr "-").length = 1 := by decide
      rw [List.length_append, hm] at hl
      simp only [decimalDigits, List.length_singleton] at hl
      omega
    · next hneg =>
      rcases decimalDigits_shape v.toNat with ⟨hlt, heq⟩ | hlen
      · rw [heq] at h
        have hb : digitByte v.toNat = 48 := by simpa using h
        have := digitByte_eq_zero _ hlt hb
        omega
      · rw [h] at hlen
        simp at hlen
  · intro h
    subst h
    decide

theorem sprintfD_ne_pending (v : Int) : sprintfD v ≠ pendingLabel := by
  have hP : pendingLabel = [80] := by decide
  rw [hP]
  intro h
  unfold sprintfD at h
  split at h
  · next hneg =>
    have hl := congrArg List.length h
    have hp := decimalLoop_length_pos v.natAbs v.natAbs
    have hm : (goStr "-").length = 1 := by decide
    rw [List.length_append, hm] at hl
    simp only [decimalDigits, List.length_singleton] at hl
    omega
  · next hneg =>
    rcases decimalDigits_shape v.toNat with ⟨hlt, heq⟩ | hlen
    · rw [heq] at h
      have hb : digitByte v.toNat = 80 := by simpa using h
      exact digitByte_ne_P _ hlt hb
    · rw [h] at hlen
      simp at hlen

theorem join_foldl (sep : GoString) (rest : List GoString) (e : GoString) :
    rest.foldl (fun b s => b ++ sep ++ s) e = e ++ rest.flatMap (fun s => sep ++ s) := by
  induction rest generalizing e with
  | nil => simp
  | cons r rs ih =>
    rw [List.foldl_cons, ih, List.flatMap_cons]
    simp only [List.append_assoc]

/-- The result of `strings.Join` is the concatenation of the elements with the
separator between consecutive ones. -/
theorem stringsJoin_eq_intercalate (elems : List GoString) (sep : GoString) :
    stringsJoin elems sep = List.intercalate sep elems := by
  cases elems with
  | nil => rfl
  | cons e rest =>
    simp only [stringsJoin, join_foldl]
    induction rest generalizing e with
    | nil => simp [List.intercalate]
    | cons r rs ih =>
      have h := ih r
      simp only [List.intercalate, List.intersperse, List.flatMap_cons] at h ⊢
      simp [h, List.append_assoc]

/-! ## The main table -/

theorem updateTable_rows (srt : SliceSort) (now : Time) (m : Model) (s : Selector) :
    (updateTable srt now m s).table.rows =
      (sortedNotes srt (selectedNotes m.app s)).map (noteRow now) := rfl

theorem mem_sortedNotes (srt : SliceSort) (hs : srt.Lawful) (selected : List Note) (n : Note) :
    n ∈ sortedNotes srt selected ↔ n ∈ selected :=
  List.Perm.mem_iff (sortedNotes_perm srt hs selected)

/-- Claim C1: whatever collection is selected (any length, any order, duplicate
IDs allowed), the rows `updateTable` sets are the rows of a rearrangement of the
selected collection that is in non-decreasing order of note ID: one row per
selected note, none dropped, none duplicated.  This holds for every sorting
routine that meets the contract of `sort.Slice`. -/
theorem main_rows_sorted_permutation (srt : SliceSort) (hs : srt.Lawful) (now : Time)
    (m : Model) (s : Selector) :
    ∃ ns : List Note,
      ns.Perm (selectedNotes m.app s) ∧
      ns.Pairwise (fun a b => a.ID ≤ b.ID) ∧
      (updateTable srt now m s).table.rows = ns.map (noteRow now) ∧
      (updateTable srt now m s).table.rows.length = (selectedNotes m.app s).length := by
  have hp := sortedNotes_perm srt hs (selectedNotes m.app s)
  refine ⟨sortedNotes srt (selectedNotes m.app s), hp,
    sortedNotes_ascending srt hs _, updateTable_rows srt now m s, ?_⟩
  rw [updateTable_rows, List.length_map]
  exact hp.length_eq

/-- Claim C1 at the demo state, sorted by Go's insertion sort. -/
theorem main_rows_sorted_permutation_witness :
    SliceSort.Lawful insertionSort ∧
    ∃ ns : List Note,
      ns.Perm (selectedNotes modelDemo.app Default) ∧
      ns.Pairwise (fun a b => a.ID ≤ b.ID) ∧
      (updateTable insertionSort clockA modelDemo Default).table.rows = ns.map (noteRow clockA) ∧
      (updateTable insertionSort clockA modelDemo Default).table.rows.length =
        (selectedNotes modelDemo.app Default).length :=
  ⟨insertionSort_lawful,
   main_rows_sorted_permutation insertionSort insertionSort_lawful clockA modelDemo Default⟩

/-- Claim C2: the rows of the main table are the rows of the sorted notes, and
for every note the ID cell of its row is `"P"` exactly when the ID is 0 and is
the decimal rendering of the ID otherwise; a pending note is never shown as
`"0"`, and a persisted note is shown neither as `"P"` nor as `"0"`.  The
decimal rendering of a positive ID reads back as that ID. -/
theorem id_cell_sentinel (srt : SliceSort) (now : Time) (m : Model) (s : Selector) :
    (updateTable srt now m s).table.rows =
      (sortedNotes srt (selectedNotes m.app s)).map (noteRow now) ∧
    ∀ n : Note,
      ((noteRow now n).head? = some pendingLabel ↔ n.ID = 0) ∧
      (n.ID ≠ 0 → (noteRow now n).head? = some (sprintfD n.ID)) ∧
      (n.ID = 0 → (noteRow now n).head? ≠ some (goStr "0")) ∧
      (n.ID ≠ 0 → (noteRow now n).head? ≠ some (goStr "P") ∧
        (noteRow now n).head? ≠ some (goStr "0")) ∧
      (0 < n.ID → digitsValue (sprintfD n.ID) = n.ID.toNat) := by
  refine ⟨rfl, fun n => ?_⟩
  by_cases h0 : n.ID = 0
  · have hrow : (noteRow now n).head? = some pendingLabel := by simp [noteRow, h0]
    refine ⟨⟨fun _ => h0, fun _ => hrow⟩, fun h => absurd h0 h, ?_, fun h => absurd h0 h, ?_⟩
    · intro _
      rw [hrow]
      decide
    · intro hpos
      omega
  · have hrow : (noteRow now n).head? = some (sprintfD n.ID) := by simp [noteRow, h0]
    have hP := sprintfD_ne_pending n.ID
    have hZ := (sprintfD_eq_zero_iff n.ID).not.2 h0
    refine ⟨⟨?_, fun h => absurd h h0⟩, fun _ => hrow, fun h => absurd h h0, ?_, ?_⟩
    · intro h
      rw [hrow] at h
      exact absurd (Option.some.inj h) hP
    · intro _
      rw [hrow]
      exact ⟨fun h => hP (Option.some.inj h), fun h => hZ (Option.some.inj h)⟩
    · intro hpos
      have hnn : ¬ n.ID < 0 := by omega
      simp only [sprintfD, if_neg hnn]
      exact decimalDigits_value _

/-- Claim C2 at the persisted note 5 and the demo state. -/
theorem id_cell_sentinel_witness :
    noteHello.ID ≠ 0 ∧ (noteRow clockA noteHello).head? = some (goStr "5") :=
  ⟨by decide,
   ((id_cell_sentinel insertionSort clockA modelDemo Default).2 noteHello).2.1 (by decide)⟩

/-- Claim C5: the rows of the main table are the rows of the sorted notes, and
the row of a persisted note has exactly four cells: the decimal ID, the stored
`CreatedAt` in the layout of the table, the content truncated at width 38, and
the topic names, in the order of the note, joined with `", "` and truncated as
one string at width 18.  The note `(5, "hello world", [go])` gives
`["5", "25-03-01 08:30", "hello world", "go"]`, and a note without topics has an
empty topics cell. -/
theorem persisted_note_row (srt : SliceSort) (now : Time) (m : Model) (s : Selector) :
    (updateTable srt now m s).table.rows =
      (sortedNotes srt (selectedNotes m.app s)).map (noteRow now) ∧
    (∀ n : Note, n.ID ≠ 0 →
      noteRow now n =
        [sprintfD n.ID, formatTime n.CreatedAt, truncContent n.Content,
          truncJoinedTopics (List.intercalate (goStr ", ") (n.Topics.map (fun t => t.Topic)))] ∧
      (n.Topics = [] → (noteRow now n).get? 3 = some [])) ∧
    noteRow now noteHello =
      [goStr "5", goStr "25-03-01 08:30", goStr "hello world", goStr "go"] := by
  have hall : ∀ n : Note, n.ID ≠ 0 →
      noteRow now n =
        [sprintfD n.ID, formatTime n.CreatedAt, truncContent n.Content,
          truncJoinedTopics (List.intercalate (goStr ", ") (n.Topics.map (fun t => t.Topic)))] := by
    intro n hn
    simp only [noteRow, if_neg hn, stringsJoin_eq_intercalate]
    rfl
  refine ⟨rfl, ?_, (hall noteHello (by decide)).trans (by decide)⟩
  intro n hn
  refine ⟨hall n hn, ?_⟩
  intro ht
  rw [hall n hn, ht]
  rfl

/-- Claim C5 at the persisted note without topics. -/
theorem persisted_note_row_witness :
    noteBare.ID ≠ 0 ∧ noteBare.Topics = [] ∧
    noteRow clockA noteBare =
      [goStr "3", goStr "25-02-14 17:05", goStr "loves rust", goStr ""] :=
  ⟨by decide, rfl,
   (((persisted_note_row insertionSort clockA modelDemo Default).2.1 noteBare
      (by decide)).1).trans (by decide)⟩

/-- Claim C6: for each of the two selection modes, `Default` and `Recent`,
after `updateTable(s)` the selector of the model is `s` and the rows are
derived from the collection of that mode, the filtered list when `s` is
`Default` and the recent list otherwise; every row is the row of a note of that
one collection, so the rows never mix the two. -/
theorem table_follows_selector (srt : SliceSort) (hs : srt.Lawful) (now : Time) (m : Model)
    (s : Selector) (hmode : s = Default ∨ s = Recent) :
    (updateTable srt now m s).NoteSelector = s ∧
    (updateTable srt now m s).table.rows =
      mainRows srt now (if s = Default then m.app.FilteredNotesList else m.app.RecentNotes) ∧
    (s = Default →
      (updateTable srt now m s).table.rows = mainRows srt now m.app.FilteredNotesList ∧
      ∀ r ∈ (updateTable srt now m s).table.rows,
        ∃ n ∈ m.app.FilteredNotesList, r = noteRow now n) ∧
    (s ≠ Default →
      (updateTable srt now m s).table.rows = mainRows srt now m.app.RecentNotes ∧
      ∀ r ∈ (updateTable srt now m s).table.rows, ∃ n ∈ m.app.RecentNotes, r = noteRow now n) := by
  have hmem : ∀ sel : List Note, ∀ r ∈ mainRows srt now sel, ∃ n ∈ sel, r = noteRow now n := by
    intro sel r hr
    obtain ⟨n, hn, rfl⟩ := List.mem_map.1 hr
    exact ⟨n, (mem_sortedNotes srt hs sel n).1 hn, rfl⟩
  have hne : Default ≠ Recent := by decide
  have hfil : s = Default →
      (updateTable srt now m s).table.rows = mainRows srt now m.app.FilteredNotesList := by
    intro h
    simp [updateTable, selectedNotes, h, hne, Table.SetRows]
  have hrec : s ≠ Default →
      (updateTable srt now m s).table.rows = mainRows srt now m.app.RecentNotes := by
    intro h
    have hr : s = Recent := by
      rcases hmode with h1 | h1
      · exact absurd h1 h
      · exact h1
    simp [updateTable, selectedNotes, hr, Table.SetRows]
  refine ⟨rfl, ?_, ?_, ?_⟩
  · by_cases h : s = Default
    · rw [if_pos h]
      exact hfil h
    · rw [if_neg h]
      exact hrec h
  · intro h
    refine ⟨hfil h, ?_⟩
    rw [hfil h]
    exact hmem _
  · intro h
    refine ⟨hrec h, ?_⟩
    rw [hrec h]
    exact hmem _

/-- Claim C6 at the demo state with the selector `Recent`: the one row shown is
that of the pending note of the recent list. -/
theorem table_follows_selector_witness :
    SliceSort.Lawful insertionSort ∧ (Recent = Default ∨ Recent = Recent) ∧
    Recent ≠ Default ∧
    (updateTable insertionSort clockA modelDemo Recent).NoteSelector = Recent ∧
    (updateTable insertionSort clockA modelDemo Recent).table.rows =
      mainRows insertionSort clockA modelDemo.app.RecentNotes :=
  ⟨insertionSort_lawful, Or.inr rfl, by decide,
   (table_follows_selector insertionSort insertionSort_lawful clockA modelDemo Recent
      (Or.inr rfl)).1,
   ((table_follows_selector insertionSort insertionSort_lawful clockA modelDemo Recent
      (Or.inr rfl)).2.2.2 (by decide)).1⟩

/-! ## The topic tables -/

theorem updateFullTopicTable_rows (srt : SliceSort) (m : Model) :
    (updateFullTopicTable srt m).fullTopicTable.rows = (sortedTopics srt m.app).map topicRow := rfl

theorem topic_id_column (srt : SliceSort) (m : Model) :
    (updateFullTopicTable srt m).fullTopicTable.rows.map List.head? =
      ((sortedTopics srt m.app).map (fun t => t.ID)).map (fun i => some (sprintfD i)) := by
  rw [updateFullTopicTable_rows, List.map_map, List.map_map]
  rfl

/-- The IDs of the sorted catalog depend only on which topics the catalog holds,
not on the order in which it stores them. -/
theorem sortedTopics_ids_of_perm (srt : SliceSort) (hs : srt.Lawful) (a b : App)
    (hp : b.Topics.Perm a.Topics) :
    (sortedTopics srt b).map (fun t => t.ID) = (sortedTopics srt a).map (fun t => t.ID) := by
  have hperm : ((sortedTopics srt b).map (fun t => t.ID)).Perm
      ((sortedTopics srt a).map (fun t => t.ID)) :=
    List.Perm.map _ (((sortedTopics_perm srt hs b).trans hp).trans
      (sortedTopics_perm srt hs a).symm)
  have hb : ((sortedTopics srt b).map (fun t => t.ID)).Sorted (fun x y : Int => x ≤ y) :=
    List.pairwise_map.2 (sortedTopics_ascending srt hs b)
  have ha : ((sortedTopics srt a).map (fun t => t.ID)).Sorted (fun x y : Int => x ≤ y) :=
    List.pairwise_map.2 (sortedTopics_ascending srt hs a)
  exact List.eq_of_perm_of_sorted hperm hb ha

/-- Claim C7: the rows `updateFullTopicTable` sets are the rows of a
rearrangement of the catalog in non-decreasing order of topic ID, one row per
catalog topic; each row is the pair of the decimal ID and the name truncated at
width 18; and a catalog holding the same topics in another storage order gives
the same column of IDs.  This holds for every sorting routine that meets the
contract of `sort.Slice`. -/
theorem full_topic_rows_sorted (srt : SliceSort) (hs : srt.Lawful) (m : Model) :
    (∃ ts : List Topic,
      ts.Perm m.app.Topics ∧
      ts.Pairwise (fun a b => a.ID ≤ b.ID) ∧
      (updateFullTopicTable srt m).fullTopicTable.rows =
        ts.map (fun t => [sprintfD t.ID, truncateRule 18 t.Topic])) ∧
    (updateFullTopicTable srt m).fullTopicTable.rows.length = m.app.Topics.length ∧
    (∀ m2 : Model, m2.app.Topics.Perm m.app.Topics →
      (updateFullTopicTable srt m2).fullTopicTable.rows.map List.head? =
        (updateFullTopicTable srt m).fullTopicTable.rows.map List.head?) := by
  have hp := sortedTopics_perm srt hs m.app
  refine ⟨⟨sortedTopics srt m.app, hp, sortedTopics_ascending srt hs m.app, rfl⟩, ?_, ?_⟩
  · rw [updateFullTopicTable_rows, List.length_map]
    exact hp.length_eq
  · intro m2 h2
    rw [topic_id_column, topic_id_column, sortedTopics_ids_of_perm srt hs m.app m2.app h2]

/-- Claim C7 at the demo state, whose catalog stores topic 2 before topic 1. -/
theorem full_topic_rows_sorted_witness :
    SliceSort.Lawful insertionSort ∧
    (updateFullTopicTable insertionSort modelDemo).fullTopicTable.rows.length =
      modelDemo.app.Topics.length ∧
    (updateFullTopicTable insertionSort modelDemo).fullTopicTable.rows =
      [[goStr "1", goStr "go"], [goStr "2", goStr "rust"]] :=
  ⟨insertionSort_lawful,
   (full_topic_rows_sorted insertionSort insertionSort_lawful modelDemo).2.1, by decide⟩

/-- Claim C8: `updateTopicsTable` sets no row when `HasCurrentNote` is false or
when `CurrentNoteTopics` is empty; otherwise it sets one single-cell row per
topic that `CurrentNoteTopics` returns, in that order, the cell being the name
truncated at width 18. -/
theorem current_note_topic_rows (m : Model) :
    (m.app.HasCurrentNote = false → (updateTopicsTable m).topicsTable.rows = []) ∧
    (m.app.CurrentNoteTopics = [] → (updateTopicsTable m).topicsTable.rows = []) ∧
    (m.app.HasCurrentNote = true →
      (updateTopicsTable m).topicsTable.rows =
        m.app.CurrentNoteTopics.map (fun t => [truncateRule 18 t.Topic]) ∧
      (updateTopicsTable m).topicsTable.rows.length = m.app.CurrentNoteTopics.length ∧
      ∀ r ∈ (updateTopicsTable m).topicsTable.rows, r.length = 1) := by
  have hrows : (updateTopicsTable m).topicsTable.rows = topicsRows m.app := rfl
  rw [hrows]
  refine ⟨?_, ?_, ?_⟩
  · intro h
    simp [topicsRows, h]
  · intro h
    simp [topicsRows, h]
  · intro h
    have hmap : topicsRows m.app =
        m.app.CurrentNoteTopics.map (fun t => [truncateRule 18 t.Topic]) := by
      simp only [topicsRows, h, if_true]
      split
      · rfl
      · next hlen =>
        have hnil : m.app.CurrentNoteTopics = [] := by
          cases hc : m.app.CurrentNoteTopics with
          | nil => rfl
          | cons t ts => rw [hc] at hlen; simp at hlen
        rw [hnil]
        rfl
    rw [hmap]
    refine ⟨rfl, by simp, ?_⟩
    intro r hr
    obtain ⟨t, _, rfl⟩ := List.mem_map.1 hr
    rfl

/-- Claim C8 at the demo state, whose current note carries `rust` then `go`. -/
theorem current_note_topic_rows_witness :
    modelDemo.app.HasCurrentNote = true ∧
    (updateTopicsTable modelDemo).topicsTable.rows = [[goStr "rust"], [goStr "go"]] :=
  ⟨rfl, (((current_note_topic_rows modelDemo).2.2 rfl).1).trans (by decide)⟩

/-! ## Frame and determinism -/

/-- Claim C9: each view function leaves the application state as it found it:
the filtered list, the recent list and the catalog hold the same notes and
topics in the same order with the same fields (the sort runs on the copy), and
what the query methods return is unchanged; each function writes its own table
and, for `updateTable`, the selector, and nothing else. -/
theorem views_leave_app_unchanged (srt : SliceSort) (now : Time) (m : Model) (s : Selector) :
    ((updateTable srt now m s).app = m.app ∧
      (updateTable srt now m s).app.FilteredNotesList = m.app.FilteredNotesList ∧
      (updateTable srt now m s).app.RecentNotes = m.app.RecentNotes ∧
      (updateTable srt now m s).app.Topics = m.app.Topics ∧
      (updateTable srt now m s).fullTopicTable = m.fullTopicTable ∧
      (updateTable srt now m s).topicsTable = m.topicsTable) ∧
    ((updateFullTopicTable srt m).app = m.app ∧
      (updateFullTopicTable srt m).app.FilteredNotesList = m.app.FilteredNotesList ∧
      (updateFullTopicTable srt m).app.RecentNotes = m.app.RecentNotes ∧
      (updateFullTopicTable srt m).app.Topics = m.app.Topics ∧
      (updateFullTopicTable srt m).NoteSelector = m.NoteSelector ∧
      (updateFullTopicTable srt m).table = m.table ∧
      (updateFullTopicTable srt m).topicsTable = m.topicsTable) ∧
    ((updateTopicsTable m).app = m.app ∧
      (updateTopicsTable m).app.FilteredNotesList = m.app.FilteredNotesList ∧
      (updateTopicsTable m).app.RecentNotes = m.app.RecentNotes ∧
      (updateTopicsTable m).app.Topics = m.app.Topics ∧
      (updateTopicsTable m).NoteSelector = m.NoteSelector ∧
      (updateTopicsTable m).table = m.table ∧
      (updateTopicsTable m).fullTopicTable = m.fullTopicTable) :=
  ⟨⟨rfl, rfl, rfl, rfl, rfl, rfl⟩, ⟨rfl, rfl, rfl, rfl, rfl, rfl, rfl⟩,
    ⟨rfl, rfl, rfl, rfl, rfl, rfl, rfl⟩⟩

/-- Claim C10, refuted as stated: on one state holding a pending note, a call of
`updateTable` when the clock reads 10:09 and a call when it reads 10:10 set
different rows. -/
theorem pending_row_follows_clock :
    (updateTable insertionSort clockA modelDemo Recent).table.rows ≠
      (updateTable insertionSort clockB modelDemo Recent).table.rows ∧
    (updateTable insertionSort clockA modelDemo Recent).table.rows =
      [[goStr "P", goStr "26-11-04 10:09", goStr "draft", goStr "rust"]] ∧
    (updateTable insertionSort clockB modelDemo Recent).table.rows =
      [[goStr "P", goStr "26-11-04 10:10", goStr "draft", goStr "rust"]] := by
  decide

theorem noteRow_clock (now1 now2 : Time) (n : Note)
    (h : formatTime now1 = formatTime now2 ∨ n.ID ≠ 0) : noteRow now1 n = noteRow now2 n := by
  rcases h with h | h
  · simp only [noteRow, h]
  · simp only [noteRow, if_neg h]

/-- Claim C10, amended: two calls of `updateTable` with the same selector on the
same state, and a second call on the state the first one left, set identical
rows whenever the clock shows the same minute at both calls or the selected
collection holds no pending note; `updateFullTopicTable` and
`updateTopicsTable` do not read the clock, and a second call changes nothing. -/
theorem views_deterministic_given_clock (srt : SliceSort) (hs : srt.Lawful) (m : Model)
    (s : Selector) :
    (∀ now1 now2 : Time,
      (formatTime now1 = formatTime now2 ∨ ∀ n ∈ selectedNotes m.app s, n.ID ≠ 0) →
      (updateTable srt now2 m s).table.rows = (updateTable srt now1 m s).table.rows ∧
      updateTable srt now2 (updateTable srt now1 m s) s = updateTable srt now1 m s) ∧
    updateFullTopicTable srt (updateFullTopicTable srt m) = updateFullTopicTable srt m ∧
    updateTopicsTable (updateTopicsTable m) = updateTopicsTable m := by
  refine ⟨?_, rfl, rfl⟩
  intro now1 now2 h
  have hrows : mainRows srt now2 (selectedNotes m.app s) =
      mainRows srt now1 (selectedNotes m.app s) := by
    unfold mainRows
    apply List.map_congr_left
    intro n hn
    refine noteRow_clock now2 now1 n ?_
    rcases h with h | h
    · exact Or.inl h.symm
    · exact Or.inr (h n ((mem_sortedNotes srt hs _ n).1 hn))
  refine ⟨?_, ?_⟩
  · exact congrArg (fun r => r) hrows
  · simp only [updateTable, Table.SetRows, hrows]

/-- Claim C10, amended, at the demo state with the filtered list, which holds no
pending note, and two clock readings. -/
theorem views_deterministic_given_clock_witness :
    SliceSort.Lawful insertionSort ∧
    (∀ n ∈ selectedNotes modelDemo.app Default, n.ID ≠ 0) ∧
    (updateTable insertionSort clockB modelDemo Default).table.rows =
      (updateTable insertionSort clockA modelDemo Default).table.rows :=
  ⟨insertionSort_lawful, by decide,
   ((views_deterministic_given_clock insertionSort insertionSort_lawful modelDemo Default).1
      clockA clockB (Or.inr (by decide))).1⟩

end Mts
